import Mathlib

/- Shallow embedding of the PlatformIO Zephyr build script
   (platformio-build.py).  The pure string/path helpers below model the
   Python standard-library and third-party primitives the script uses
   (str.strip, str.replace, os.path.dirname/basename/relpath/isabs,
   platformio.fs.to_unix_path, click.parser.split_arg_string, SCons
   AppendUnique).  Filesystem queries (os.path.isfile) are passed in as
   oracles of type String to Bool.  All definitions are executable. -/

set_option maxRecDepth 4000

/- Boolean test that the first list is a prefix of the second. -/
def isPrefixB : List Char → List Char → Bool
  | [], _ => true
  | _ :: _, [] => false
  | a :: as, b :: bs => a == b && isPrefixB as bs

/- Boolean substring containment test, pattern given first. -/
def containsB (pat : List Char) : List Char → Bool
  | [] => pat.isEmpty
  | c :: rest => isPrefixB pat (c :: rest) || containsB pat rest

/- Models Python str.startswith for a single pattern. -/
def strStartsWith (s pat : String) : Bool := isPrefixB pat.data s.data

/- Models Python str.endswith for a single pattern. -/
def strEndsWith (s pat : String) : Bool := isPrefixB pat.data.reverse s.data.reverse

/- Models the "in" substring test of Python. -/
def containsStr (s pat : String) : Bool := containsB pat.data s.data

/- Whitespace set stripped by Python str.strip (ASCII part). -/
def isWsChar (c : Char) : Bool :=
  c == ' ' || c == '\t' || c == '\n' || c == '\r' || c == '\x0b' || c == '\x0c'

def trimChars (l : List Char) : List Char :=
  ((l.dropWhile isWsChar).reverse.dropWhile isWsChar).reverse

/- Models Python str.strip with no arguments. -/
def strTrim (s : String) : String := ⟨trimChars s.data⟩

/- Fuel-driven replacement of every non-overlapping occurrence of pat,
   scanning left to right; fuel is instantiated with the input length. -/
def replaceGo (pat rep : List Char) : Nat → List Char → List Char
  | 0, l => l
  | _ + 1, [] => []
  | fuel + 1, c :: rest =>
    if isPrefixB pat (c :: rest) then
      rep ++ replaceGo pat rep fuel (List.drop (pat.length - 1) rest)
    else
      c :: replaceGo pat rep fuel rest

/- Models Python str.replace (for a non-empty pattern). -/
def strReplace (s pat rep : String) : String :=
  if pat.data.isEmpty then s
  else ⟨replaceGo pat.data rep.data s.data.length s.data⟩

/- Character-level scan collapsing every run of backslashes to one slash. -/
def toUnixGo : Bool → List Char → List Char
  | _, [] => []
  | prev, c :: rest =>
    if c == '\\' then
      (if prev then toUnixGo true rest else '/' :: toUnixGo true rest)
    else c :: toUnixGo false rest

/- Models platformio.fs.to_unix_path: re.sub of backslash runs by "/". -/
def toUnixPath (s : String) : String := ⟨toUnixGo false s.data⟩

/- Splits a character list on the slash character, dropping empty parts. -/
def splitChars : List Char → List Char → List (List Char)
  | [], acc => if acc.isEmpty then [] else [acc.reverse]
  | c :: rest, acc =>
    if c == '/' then
      (if acc.isEmpty then splitChars rest [] else acc.reverse :: splitChars rest [])
    else splitChars rest (c :: acc)

/- Non-empty slash-separated components of a POSIX path string. -/
def splitPathComps (s : String) : List String :=
  (splitChars s.data []).map (fun l => ⟨l⟩)

/- Models the component processing of posixpath.normpath on an absolute
   path: "." is dropped and ".." pops the previous component. -/
def normAbsComps (l : List String) : List String :=
  l.foldl (fun acc c => if c == "." then acc else if c == ".." then acc.dropLast else acc ++ [c]) []

/- Length of the longest common prefix of two component lists, as
   computed by os.path.commonprefix on lists. -/
def commonLen : List String → List String → Nat
  | a :: as, b :: bs => if a == b then commonLen as bs + 1 else 0
  | _, _ => 0

/- Characters of a slash-joined component list. -/
def joinSlash : List String → List Char
  | [] => []
  | [c] => c.data
  | c :: rest => c.data ++ '/' :: joinSlash rest

/- Renders a relative component list as posixpath.join does, yielding
   "." for the empty list as os.path.relpath does. -/
def renderRel (l : List String) : String :=
  if l.isEmpty then "." else ⟨joinSlash l⟩

/- Models os.path.relpath on POSIX: both arguments are resolved with
   abspath (relative arguments against the process cwd, passed here
   explicitly and assumed absolute), normalized, and compared. -/
def relpathPosix (cwd path start : String) : String :=
  let pl := normAbsComps ((if strStartsWith path "/" then [] else splitPathComps cwd) ++ splitPathComps path)
  let sl := normAbsComps ((if strStartsWith start "/" then [] else splitPathComps cwd) ++ splitPathComps start)
  let i := commonLen sl pl
  renderRel (List.replicate (sl.length - i) ".." ++ pl.drop i)

/- Models os.path.isabs on POSIX. -/
def isAbsPath (s : String) : Bool := strStartsWith s "/"

/- Index of the last slash of a character list, if any. -/
def lastSlashIdx (l : List Char) : Option Nat :=
  (l.foldl (fun (st : Nat × Option Nat) c =>
    (st.1 + 1, if c == '/' then some st.1 else st.2)) (0, none)).2

def dropTrailingSlashes (l : List Char) : List Char :=
  (l.reverse.dropWhile (fun c => c == '/')).reverse

/- Models os.path.dirname on POSIX. -/
def dirnamePosix (p : String) : String :=
  match lastSlashIdx p.data with
  | none => ""
  | some i =>
    let head := p.data.take (i + 1)
    if head.all (fun c => c == '/') then ⟨head⟩ else ⟨dropTrailingSlashes head⟩

/- Models os.path.basename on POSIX. -/
def basenamePosix (p : String) : String :=
  match lastSlashIdx p.data with
  | none => p
  | some i => ⟨p.data.drop (i + 1)⟩

/- Whitespace set used by shlex for token splitting. -/
def isShlexWs (c : Char) : Bool := c == ' ' || c == '\t' || c == '\n' || c == '\r'

/- Models shlex in POSIX mode with whitespace_split, as used by
   click.parser.split_arg_string: whitespace separates tokens, quotes
   group, backslash escapes; on an unclosed construct the partial token
   is kept, as click does when it catches the shlex ValueError. -/
def shlexGo : List Char → Bool → List Char → Option Char → List (List Char)
  | [], started, acc, _ => if started then [acc.reverse] else []
  | c :: rest, _started, acc, some q =>
    if c == q then shlexGo rest true acc none
    else if q == '"' && c == '\\' then
      match rest with
      | [] => [acc.reverse]
      | d :: rest2 =>
        if d == '"' || d == '\\' then shlexGo rest2 true (d :: acc) (some q)
        else shlexGo rest2 true (d :: c :: acc) (some q)
    else shlexGo rest true (c :: acc) (some q)
  | c :: rest, started, acc, none =>
    if isShlexWs c then
      (if started then acc.reverse :: shlexGo rest false [] none else shlexGo rest false [] none)
    else if c == '"' || c == '\'' then shlexGo rest true acc (some c)
    else if c == '\\' then
      match rest with
      | [] => if started then [acc.reverse] else []
      | d :: rest2 => shlexGo rest2 true (d :: acc) none
    else shlexGo rest true (c :: acc) none

/- Models click.parser.split_arg_string. -/
def splitArgString (s : String) : List String :=
  (shlexGo s.data false [] none).map (fun l => ⟨l⟩)

/- Models SCons AppendUnique on one flag list: each new value is
   appended only when not already present. -/
def appendUnique (xs ys : List String) : List String :=
  ys.foldl (fun acc y => if acc.contains y then acc else acc ++ [y]) xs

/- One link command fragment of the CMake code model: the raw text and
   its role tag, as consumed by extract_link_args. -/
structure LinkFragment where
  fragment : String
  role : String

structure ProjectLibs where
  whole_libs : List String
  generic_libs : List String
  standard_libs : List String

/- The categorized link plan produced by extract_link_args. -/
structure LinkArgs where
  link_flags : List String
  lib_paths : List String
  project_libs : ProjectLibs

def emptyLinkArgs : LinkArgs := ⟨[], [], ⟨[], [], []⟩⟩

/- The processed fragment text: f.get("fragment", "").strip().replace
   of backslash by slash. -/
def processedFrag (f : LinkFragment) : String :=
  strReplace (strTrim f.fragment) "\\" "/"

/- True when extract_link_args skips the fragment: empty processed text
   or empty stripped role. -/
def skipFragB (f : LinkFragment) : Bool :=
  processedFrag f == "" || strTrim f.role == ""

def beginMarker : String := "-Wl,--whole-archive"

def endMarker : String := "-Wl,--no-whole-archive"

/- The whole-archive state transition of one fragment: skipped fragments
   leave the state unchanged; otherwise the begin marker sets it and the
   end marker clears it, the end marker checked second as in the source. -/
def markerUpd (b : Bool) (f : LinkFragment) : Bool :=
  if skipFragB f then b
  else
    let w1 := if containsStr (processedFrag f) beginMarker then true else b
    if containsStr (processedFrag f) endMarker then false else w1

/- The whole-archive state after a fragment list, starting from False. -/
def markerState (frags : List LinkFragment) : Bool :=
  frags.foldl markerUpd false

/- The role and content dispatch of extract_link_args for one
   non-skipped fragment, given the already-updated whole-archive state. -/
def linkBuckets (isFile : String → Bool) (w : Bool) (la : LinkArgs) (f : LinkFragment) : LinkArgs :=
  let frag := processedFrag f
  let role := strTrim f.role
  let args := splitArgString frag
  if role == "flags" then ⟨la.link_flags ++ args, la.lib_paths, la.project_libs⟩
  else if role == "libraries" then
    if strStartsWith frag "-l" || strStartsWith frag "-Wl,-l" then
      ⟨la.link_flags, la.lib_paths,
        ⟨la.project_libs.whole_libs, la.project_libs.generic_libs,
          la.project_libs.standard_libs ++ args⟩⟩
    else if strStartsWith frag "-L" then
      let lp := strTrim (strReplace frag "-L" "")
      if la.lib_paths.contains lp then la
      else ⟨la.link_flags, la.lib_paths ++ [strReplace lp "\"" ""], la.project_libs⟩
    else if strStartsWith frag "-" && !(strStartsWith frag "-l") then
      ⟨la.link_flags ++ args, la.lib_paths, la.project_libs⟩
    else if isFile frag && isAbsPath frag then
      let lp := dirnamePosix frag
      let paths2 := if la.lib_paths.contains lp then la.lib_paths else la.lib_paths ++ [dirnamePosix frag]
      ⟨la.link_flags, paths2,
        ⟨la.project_libs.whole_libs, la.project_libs.generic_libs,
          la.project_libs.standard_libs ++ ((args.filter (fun l => strEndsWith l ".a")).map basenamePosix)⟩⟩
    else if strEndsWith frag ".a" then
      let libs := (args.filter (fun l => strEndsWith l ".a")).map (fun l => strReplace l "\\" "/")
      if w then
        ⟨la.link_flags, la.lib_paths,
          ⟨la.project_libs.whole_libs ++ libs, la.project_libs.generic_libs,
            la.project_libs.standard_libs⟩⟩
      else
        ⟨la.link_flags, la.lib_paths,
          ⟨la.project_libs.whole_libs, la.project_libs.generic_libs ++ libs,
            la.project_libs.standard_libs⟩⟩
    else ⟨la.link_flags ++ args, la.lib_paths, la.project_libs⟩
  else la

/- One loop iteration of extract_link_args: the whole-archive state is
   updated from the fragment text before categorization. -/
def linkStep (isFile : String → Bool) (st : Bool × LinkArgs) (f : LinkFragment) : Bool × LinkArgs :=
  if skipFragB f then st
  else
    let w := markerUpd st.1 f
    (w, linkBuckets isFile w st.2 f)

/- Models extract_link_args of platformio-build.py over its fragment
   list (the optional extra-target merge is performed by the caller);
   os.path.isfile is the oracle isFile. -/
def extract_link_args (isFile : String → Bool) (frags : List LinkFragment) : LinkArgs :=
  (frags.foldl (linkStep isFile) (false, emptyLinkArgs)).2

/- The ".a" tokens contributed by one fragment in the archive branch. -/
def archTokens (f : LinkFragment) : List String :=
  ((splitArgString (processedFrag f)).filter (fun l => strEndsWith l ".a")).map
    (fun l => strReplace l "\\" "/")

/- The conditions under which a fragment reaches the final ".a" branch
   of the role "libraries" dispatch. -/
def archiveBranch (isFile : String → Bool) (f : LinkFragment) : Prop :=
  skipFragB f = false ∧
  strTrim f.role = "libraries" ∧
  strStartsWith (processedFrag f) "-" = false ∧
  (isFile (processedFrag f) && isAbsPath (processedFrag f)) = false ∧
  strEndsWith (processedFrag f) ".a" = true

/- Fragment list positions that carry a whole-archive begin marker with
   no later (or same-fragment) end marker among non-skipped fragments. -/
def WholeWitness (l : List LinkFragment) : Prop :=
  ∃ l1 g l2, l = l1 ++ g :: l2 ∧
    skipFragB g = false ∧
    containsStr (processedFrag g) beginMarker = true ∧
    containsStr (processedFrag g) endMarker = false ∧
    ∀ h ∈ l2, skipFragB h = false → containsStr (processedFrag h) endMarker = false

/- One include entry of a compile group: path and isSystem flag. -/
structure IncludeEntry where
  path : String
  isSystem : Bool

/- The three include buckets of extract_includes_from_compile_group. -/
structure IncludesPartition where
  plain_includes : List String
  sys_includes : List String
  prefixed_includes : List String

/- Models the inner _normalize_prefix helper: unix-style path with a
   guaranteed trailing slash. -/
def normalizeRoot (p : String) : String :=
  let q := toUnixPath p
  if strEndsWith q "/" then q else q ++ "/"

/- One loop iteration of extract_includes_from_compile_group, for the
   already-normalized optional root. -/
def includeStep (cwd : String) (root? : Option String) (acc : IncludesPartition) (inc : IncludeEntry) : IncludesPartition :=
  let ip := toUnixPath inc.path
  if inc.isSystem then ⟨acc.plain_includes, acc.sys_includes ++ [ip], acc.prefixed_includes⟩
  else
    match root? with
    | some q =>
      if strStartsWith ip q then
        ⟨acc.plain_includes, acc.sys_includes,
          acc.prefixed_includes ++ [toUnixPath (relpathPosix cwd ip q)]⟩
      else ⟨acc.plain_includes ++ [ip], acc.sys_includes, acc.prefixed_includes⟩
    | none => ⟨acc.plain_includes ++ [ip], acc.sys_includes, acc.prefixed_includes⟩

/- Models extract_includes_from_compile_group: the path_prefix argument
   is normalized when truthy (None and the empty string are falsy in
   Python), then every include entry is placed in exactly one bucket. -/
def extract_includes_from_compile_group (cwd : String) (includes : List IncludeEntry) (pathPre : Option String) : IncludesPartition :=
  let root? : Option String :=
    match pathPre with
    | some q => if q == "" then none else some (normalizeRoot q)
    | none => none
  includes.foldl (includeStep cwd root?) ⟨[], [], []⟩

/- Reference form of the system bucket: the isSystem entries in order. -/
def sysIncludesSpec (includes : List IncludeEntry) : List String :=
  (includes.filter (fun i => i.isSystem)).map (fun i => toUnixPath i.path)

/- Reference form of the prefixed bucket for a truthy root. -/
def prefixedIncludesSpec (cwd root : String) (includes : List IncludeEntry) : List String :=
  (includes.filter (fun i => !i.isSystem && strStartsWith (toUnixPath i.path) (normalizeRoot root))).map
    (fun i => toUnixPath (relpathPosix cwd (toUnixPath i.path) (normalizeRoot root)))

/- Reference form of the plain bucket for a truthy root. -/
def plainIncludesSpec (_cwd root : String) (includes : List IncludeEntry) : List String :=
  (includes.filter (fun i => !i.isSystem && !(strStartsWith (toUnixPath i.path) (normalizeRoot root)))).map
    (fun i => toUnixPath i.path)

/- True when a fragment trims to exactly -imacros or -include, the pair
   heads of the positional flag walk of prepare_build_envs. -/
def isSpecialFrag (bf : String) : Bool :=
  strTrim bf == "-imacros" || strTrim bf == "-include"

/- The contribution of one ordinary fragment to the CCFLAGS list: empty
   and -D fragments are skipped, anything else is parsed by the SCons
   flag parser (abstracted as pf) and merged with AppendUnique. -/
def ccStep (pf : String → List String) (out : List String) (bf : String) : List String :=
  if !(strTrim bf == "") && !(strStartsWith bf "-D") then appendUnique out (pf bf)
  else out

/- Models the positional compile-command-fragment walk of
   prepare_build_envs restricted to the CCFLAGS list: a fragment that
   trims to -imacros or -include consumes the following fragment and
   appends the raw concatenation of the two as one token; a special
   fragment in final position makes the i+1 access fail, modeled as
   none.  pf abstracts the CCFLAGS part of SCons ParseFlags. -/
def ccWalk (pf : String → List String) : List String → List String → Option (List String)
  | out, [] => some out
  | out, [bf] => if isSpecialFrag bf then none else some (ccStep pf out bf)
  | out, bf :: fp :: rest =>
    if isSpecialFrag bf then ccWalk pf (out ++ [bf ++ fp]) rest
    else ccWalk pf (ccStep pf out bf) (fp :: rest)

/- True when the walk consumes exactly this list: no special fragment is
   left dangling in flag position at the end. -/
def selfContained : List String → Bool
  | [] => true
  | [bf] => !(isSpecialFrag bf)
  | bf :: fp :: rest => if isSpecialFrag bf then selfContained rest else selfContained (fp :: rest)

/- Keep test of filter_args: starts with an allowed prefix and with no
   ignored prefix. -/
def keepArg (allowed ignore : List String) (a : String) : Bool :=
  allowed.any (fun f => strStartsWith a f) && !(ignore.any (fun f => strStartsWith a f))

/- The index walk of filter_args: a kept flag also keeps the immediately
   following token when that token does not start with a dash. -/
def filterGo (allowed ignore : List String) : List String → List String
  | [] => []
  | a :: rest =>
    if keepArg allowed ignore a then
      match rest with
      | [] => [a]
      | b :: rest2 =>
        if strStartsWith b "-" then a :: filterGo allowed ignore (b :: rest2)
        else a :: b :: filterGo allowed ignore rest2
    else filterGo allowed ignore rest

/- Models filter_args of platformio-build.py. -/
def filter_args (args allowed ignore : List String) : List String :=
  if allowed.isEmpty then [] else filterGo allowed ignore args

/- The ignore_flags tuple used for the final link-flag filtering. -/
def ignore_flags : List String :=
  ["CMakeFiles", "-Wl,--whole-archive", "-Wl,--no-whole-archive", "-Wl,-T"]

/- Declared outputs of the generated-artifact drivers, under the build
   directory (os.path.join with "/" on POSIX, env.subst of BUILD_DIR). -/
def genIncludeDir (bd : String) : String := bd ++ "/zephyr/include/generated"

def kobjOutputs (bd : String) : List String :=
  [genIncludeDir bd ++ "/kobj-types-enum.h",
   genIncludeDir bd ++ "/otype-to-str.h",
   genIncludeDir bd ++ "/otype-to-size.h"]

def driverValidationOut (bd : String) : String := genIncludeDir bd ++ "/driver-validation.h"

def syscallsJsonOut (bd : String) : String := bd ++ "/zephyr/misc/generated/syscalls.json"

def structTagsOut (bd : String) : String := bd ++ "/zephyr/misc/generated/struct_tags.json"

def syscallListOut (bd : String) : String := genIncludeDir bd ++ "/syscall_list.h"

def versionHeaderOut (bd : String) : String := genIncludeDir bd ++ "/version.h"

/- True when generate_kobject_files reaches its env.Execute call: it
   returns early only when all three outputs exist. -/
def generate_kobject_files_runs (bd : String) (isFile : String → Bool) : Bool :=
  !((kobjOutputs bd).all isFile)

/- True when validate_driver reaches its env.Execute call. -/
def validate_driver_runs (bd : String) (isFile : String → Bool) : Bool :=
  !(isFile (driverValidationOut bd))

/- True when parse_syscalls reaches its env.Execute call. -/
def parse_syscalls_runs (bd : String) (isFile : String → Bool) : Bool :=
  !(isFile (syscallsJsonOut bd) && isFile (structTagsOut bd))

/- True when generate_syscall_files reaches its env.Execute call. -/
def generate_syscall_files_runs (bd : String) (isFile : String → Bool) : Bool :=
  !(isFile (syscallListOut bd))

/- True when generate_version_header_file_cmd reaches its env.Execute
   call: the function body contains no existence check at all. -/
def generate_version_header_file_cmd_runs (_bd : String) (_isFile : String → Bool) : Bool := true

/- True when generate_error_table reaches its env.Execute call: the
   function body contains no existence check at all. -/
def generate_error_table_runs (_isFile : String → Bool) : Bool := true

/- Models Python list.index returning the position of the first
   occurrence, none standing for the ValueError case. -/
def pyIndex (x : String) : List String → Option Nat
  | [] => none
  | a :: rest => if a == x then some 0 else (pyIndex x rest).map (fun n => n + 1)

/- Models the module-level removal of the -T linker.cmd pair from
   link_flags: list.index finds the first occurrence, the two pops
   remove it and the element before it (a Python negative index removing
   the last element when the occurrence is first), and any exception
   leaves the state reached so far, because the bare except swallows
   it. -/
def remove_linker_script_flags (flags : List String) : List String :=
  match pyIndex "linker.cmd" flags with
  | none => flags
  | some i =>
    let f1 := flags.eraseIdx i
    if i = 0 then f1.dropLast else f1.eraseIdx (i - 1)

/- One target configuration indexed by load_target_configurations;
   every stored value carries at least its name field. -/
structure TargetConfig where
  name : String

/- Python dict assignment on an association list with unique keys:
   overwrite in place when the key exists, append otherwise. -/
def dictInsert (m : List (String × TargetConfig)) (k : String) (v : TargetConfig) : List (String × TargetConfig) :=
  if (m.lookup k).isSome then m.map (fun p => if p.1 == k then (k, v) else p)
  else m ++ [(k, v)]

/- Models load_target_configurations: every parsed target config is
   indexed by its name. -/
def load_target_configurations (targets : List TargetConfig) : List (String × TargetConfig) :=
  targets.foldl (fun m t => dictInsert m t.name t) []

/- Models the module-level required-target checks after loading: the
   run exits fatally when the app target is missing or the prebuilt
   target is missing under both name aliases; otherwise the mapping is
   used unchanged. -/
def requiredTargetsCheck (m : List (String × TargetConfig)) : Except String (List (String × TargetConfig)) :=
  let app := m.lookup "app"
  let pre :=
    match m.lookup "zephyr_prebuilt" with
    | some c => some c
    | none => m.lookup "zephyr_pre0"
  if app.isNone || pre.isNone then
    Except.error "Error: Could not find main Zephyr target in the code model"
  else Except.ok m

/- A parsed code-model reply with its reported schema major version. -/
structure CodeModel where
  major : Int

/- The loop of get_cmake_code_model over the reply directory listing:
   every file whose name starts with codemodel-v2 is parsed and
   overwrites the previous one, so the last match is kept. -/
def selectCodeModel (entries : List (String × CodeModel)) : Option CodeModel :=
  entries.foldl (fun acc e => if strStartsWith e.1 "codemodel-v2" then some e.2 else acc) none

/- Models the tail of get_cmake_code_model: an empty reply directory is
   fatal, no matching reply leaves the empty dict and the version lookup
   fails, and the assert rejects a major version other than 2. -/
def get_cmake_code_model_check (entries : List (String × CodeModel)) : Except String CodeModel :=
  if entries.isEmpty then Except.error "Error: Could not find CMake API response file"
  else
    match selectCodeModel entries with
    | none => Except.error "KeyError: version"
    | some m =>
      if m.major = 2 then Except.ok m
      else Except.error "AssertionError: codemodel version major is not 2"

/- Transitivity of the boolean prefix test. -/
theorem isPrefixB_trans : ∀ (q p l : List Char), isPrefixB q p = true → isPrefixB p l = true → isPrefixB q l = true
  | [], _, _, _, _ => rfl
  | _ :: _, [], _, h1, _ => by simp [isPrefixB] at h1
  | a :: as, b :: bs, l, h1, h2 => by
    cases l with
    | nil => simp [isPrefixB] at h2
    | cons c cs =>
      simp only [isPrefixB, Bool.and_eq_true, beq_iff_eq] at h1 h2 ⊢
      exact ⟨h1.1.trans h2.1, isPrefixB_trans as bs cs h1.2 h2.2⟩

/- A startswith test for a longer pattern entails one for any prefix of
   that pattern. -/
theorem startsWith_trans {s p q : String} (hqp : isPrefixB q.data p.data = true)
    (h : strStartsWith s p = true) : strStartsWith s q = true :=
  isPrefixB_trans q.data p.data s.data hqp h

/- AppendUnique never loses an element already present. -/
theorem appendUnique_mem {x : String} : ∀ (ys xs : List String), x ∈ xs → x ∈ appendUnique xs ys
  | [], _, hx => hx
  | y :: ys, xs, hx =>
    appendUnique_mem ys (if xs.contains y then xs else xs ++ [y])
      (by split
          · exact hx
          · exact List.mem_append_left _ hx)

/- A false boolean contains test refutes membership. -/
theorem not_mem_of_contains_false {l : List String} {x : String}
    (h : l.contains x = false) : x ∉ l := by
  intro hm
  simp [hm] at h

/-- C4 (amended): among the eagerly executed generated-artifact drivers,
the kernel-object, driver-validation, syscall-parsing and
syscall-generation drivers skip their external generator command exactly
when all of their declared outputs already exist, while the
version-header and error-table drivers reach their generator invocation
unconditionally, performing no existence check. -/
theorem driver_guard_status (bd : String) (isFile : String → Bool) :
    (generate_kobject_files_runs bd isFile = false ↔ (kobjOutputs bd).all isFile = true) ∧
    (validate_driver_runs bd isFile = false ↔ isFile (driverValidationOut bd) = true) ∧
    (parse_syscalls_runs bd isFile = false ↔
      (isFile (syscallsJsonOut bd) && isFile (structTagsOut bd)) = true) ∧
    (generate_syscall_files_runs bd isFile = false ↔ isFile (syscallListOut bd) = true) ∧
    generate_version_header_file_cmd_runs bd isFile = true ∧
    generate_error_table_runs isFile = true := by
  refine ⟨?_, ?_, ?_, ?_, rfl, rfl⟩ <;>
    simp [generate_kobject_files_runs, validate_driver_runs, parse_syscalls_runs,
      generate_syscall_files_runs]

/- C4 counterexample: with every declared output present, the
   version-header driver still reaches its generator invocation, so
   re-running it is not a no-op. -/
theorem version_header_always_runs :
    (fun _ : String => true) (versionHeaderOut "/build") = true ∧
    generate_version_header_file_cmd_runs "/build" (fun _ => true) = true :=
  ⟨rfl, rfl⟩

/-- C7: the code model selected from the reply directory (the last reply
file whose name starts with the version tag) is returned by
get_cmake_code_model exactly when its reported schema major version is
2; any other major version makes loading fail fatally. -/
theorem code_model_version_check (entries : List (String × CodeModel)) (m : CodeModel)
    (hsel : selectCodeModel entries = some m) :
    (get_cmake_code_model_check entries = Except.ok m ↔ m.major = 2) ∧
    (m.major ≠ 2 → ∃ e, get_cmake_code_model_check entries = Except.error e) := by
  have hne : entries.isEmpty = false := by
    cases entries with
    | nil => simp [selectCodeModel] at hsel
    | cons e es => rfl
  by_cases hm : m.major = 2 <;>
    simp [get_cmake_code_model_check, hne, hsel, hm]

/- C7 witness at a reply directory with one matching code-model file of
   major version 2. -/
theorem code_model_version_check_witness :
    (get_cmake_code_model_check [("codemodel-v2-abc.json", ⟨2⟩)] = Except.ok ⟨2⟩ ↔
      (⟨2⟩ : CodeModel).major = 2) ∧
    ((⟨2⟩ : CodeModel).major ≠ 2 →
      ∃ e, get_cmake_code_model_check [("codemodel-v2-abc.json", ⟨2⟩)] = Except.error e) :=
  code_model_version_check [("codemodel-v2-abc.json", ⟨2⟩)] ⟨2⟩ rfl

/- pyIndex of an absent element is none. -/
theorem pyIndex_eq_none {x : String} : ∀ {l : List String}, x ∉ l → pyIndex x l = none
  | [], _ => rfl
  | a :: rest, h => by
    have h1 : a ≠ x := fun he => h (by rw [← he]; exact List.mem_cons_self a rest)
    have ha : (a == x) = false := beq_eq_false_iff_ne.mpr h1
    have ih := pyIndex_eq_none (x := x) (l := rest) (fun hm => h (List.mem_cons_of_mem a hm))
    simp [pyIndex, ha, ih]

/- pyIndex finds the pair position used by the linker-script removal. -/
theorem pyIndex_pair {a : String} (ha : a ≠ "linker.cmd") :
    ∀ (pre : List String), "linker.cmd" ∉ pre → ∀ (suf : List String),
      pyIndex "linker.cmd" (pre ++ a :: "linker.cmd" :: suf) = some (pre.length + 1)
  | [], _, suf => by
    have ha2 : (a == "linker.cmd") = false := beq_eq_false_iff_ne.mpr ha
    simp [pyIndex, ha2]
  | p :: pre, h, suf => by
    have hp1 : p ≠ "linker.cmd" := fun he => h (by rw [← he]; exact List.mem_cons_self p pre)
    have hp : (p == "linker.cmd") = false := beq_eq_false_iff_ne.mpr hp1
    have hpre : "linker.cmd" ∉ pre := fun hm => h (List.mem_cons_of_mem p hm)
    have ih := pyIndex_pair ha pre hpre suf
    simp [pyIndex, hp, ih, List.length_cons]

/- Erasing behind a prefix leaves the prefix untouched. -/
theorem eraseIdx_append_shift : ∀ (pre l : List String) (k : Nat),
    (pre ++ l).eraseIdx (pre.length + k) = pre ++ l.eraseIdx k
  | [], _, _ => by simp
  | p :: pre, l, k => by
    have h : (p :: pre).length + k = (pre.length + k) + 1 := by
      simp [List.length_cons]
      omega
    simp only [h, List.cons_append, List.eraseIdx]
    rw [eraseIdx_append_shift pre l k]

/-- C8 (amended): the linker-script removal deletes the first
occurrence of the token linker.cmd together with the element
immediately preceding it, leaving all other elements in order, and
leaves a list with no such token unchanged; when linker.cmd is the
first element, the second pop uses the Python index -1, so the last
element of the remaining list is removed instead of a preceding one. -/
theorem linker_cmd_removal :
    (∀ (pre suf : List String) (a : String), "linker.cmd" ∉ pre → a ≠ "linker.cmd" →
      remove_linker_script_flags (pre ++ a :: "linker.cmd" :: suf) = pre ++ suf) ∧
    (∀ l : List String, "linker.cmd" ∉ l → remove_linker_script_flags l = l) ∧
    (∀ suf : List String, remove_linker_script_flags ("linker.cmd" :: suf) = suf.dropLast) := by
  refine ⟨?_, ?_, ?_⟩
  · intro pre suf a hpre ha
    have hidx := pyIndex_pair ha pre hpre suf
    have e1 : (pre ++ a :: "linker.cmd" :: suf).eraseIdx (pre.length + 1) = pre ++ a :: suf := by
      have h := eraseIdx_append_shift pre (a :: "linker.cmd" :: suf) 1
      simpa [List.eraseIdx] using h
    have e2 : (pre ++ a :: suf).eraseIdx pre.length = pre ++ suf := by
      have h := eraseIdx_append_shift pre (a :: suf) 0
      simpa [List.eraseIdx] using h
    have hne : ¬(pre.length + 1 = 0) := by omega
    simp only [remove_linker_script_flags, hidx, if_neg hne, e1]
    simpa using e2
  · intro l hl
    simp [remove_linker_script_flags, pyIndex_eq_none hl]
  · intro suf
    simp [remove_linker_script_flags, pyIndex, List.eraseIdx]

/- C8 witness at concrete lists: a pair in the middle is removed, a
   list without the token is unchanged, and the leading-token case drops
   the last element. -/
theorem linker_cmd_removal_witness :
    remove_linker_script_flags (["-a"] ++ "-T" :: "linker.cmd" :: ["-b"]) = ["-a"] ++ ["-b"] ∧
    remove_linker_script_flags ["-x"] = ["-x"] ∧
    remove_linker_script_flags ("linker.cmd" :: ["-y"]) = ["-y"].dropLast :=
  ⟨linker_cmd_removal.1 ["-a"] ["-b"] "-T" (by decide) (by decide),
   linker_cmd_removal.2.1 ["-x"] (by decide),
   linker_cmd_removal.2.2 ["-y"]⟩

/- C8 counterexample: with linker.cmd in first position the element
   after it is removed as well, not a preceding flag, so the other
   elements are not left unchanged. -/
theorem linker_cmd_removal_counterexample :
    remove_linker_script_flags ["linker.cmd", "-A"] = [] := by decide

/- Lookup distributes over list append as first-match search. -/
theorem lookup_append : ∀ (m l2 : List (String × TargetConfig)) (k' : String),
    (m ++ l2).lookup k' =
      (match m.lookup k' with
       | some v => some v
       | none => l2.lookup k')
  | [], l2, k' => by simp [List.lookup]
  | (p, q) :: rest, l2, k' => by
    cases h : (k' == p) <;> simp [List.lookup, h, lookup_append rest l2 k']

/- Looking up the replaced key after an in-place overwrite. -/
theorem lookup_map_replace_self {k : String} {v : TargetConfig} :
    ∀ {m : List (String × TargetConfig)}, (m.lookup k).isSome = true →
      (m.map (fun p => if p.1 == k then (k, v) else p)).lookup k = some v
  | [], h => by simp [List.lookup] at h
  | (p1, p2) :: rest, h => by
    cases hp : (p1 == k) with
    | true =>
      have hhead : (if ((p1, p2).1 == k) = true then ((k, v) : String × TargetConfig) else (p1, p2)) = (k, v) := by
        simp [hp]
      rw [List.map_cons, hhead]
      simp only [List.lookup, beq_self_eq_true]
    | false =>
      have hhead : (if ((p1, p2).1 == k) = true then ((k, v) : String × TargetConfig) else (p1, p2)) = (p1, p2) := by
        simp [hp]
      have hk : (k == p1) = false := by
        have h3 := beq_eq_false_iff_ne.mp hp
        exact beq_eq_false_iff_ne.mpr (fun he => h3 he.symm)
      have h2 : (rest.lookup k).isSome = true := by
        rw [List.lookup, hk] at h
        exact h
      rw [List.map_cons, hhead]
      simp only [List.lookup, hk]
      exact lookup_map_replace_self h2

/- Looking up a different key after an in-place overwrite. -/
theorem lookup_map_replace_other {k k' : String} {v : TargetConfig} (hne : k' ≠ k) :
    ∀ (m : List (String × TargetConfig)),
      (m.map (fun p => if p.1 == k then (k, v) else p)).lookup k' = m.lookup k'
  | [] => by simp
  | (p1, p2) :: rest => by
    have hk : (k' == k) = false := beq_eq_false_iff_ne.mpr hne
    cases hp : (p1 == k) with
    | true =>
      have hhead : (if ((p1, p2).1 == k) = true then ((k, v) : String × TargetConfig) else (p1, p2)) = (k, v) := by
        simp [hp]
      have hp1 : p1 = k := beq_iff_eq.mp hp
      have hk2 : (k' == p1) = false := by rw [hp1]; exact hk
      rw [List.map_cons, hhead]
      simp only [List.lookup, hk, hk2]
      exact lookup_map_replace_other hne rest
    | false =>
      have hhead : (if ((p1, p2).1 == k) = true then ((k, v) : String × TargetConfig) else (p1, p2)) = (p1, p2) := by
        simp [hp]
      rw [List.map_cons, hhead]
      cases h : (k' == p1) with
      | true => simp only [List.lookup, h]
      | false =>
        simp only [List.lookup, h]
        exact lookup_map_replace_other hne rest

/- dictInsert makes the inserted key visible. -/
theorem dictInsert_lookup_self (m : List (String × TargetConfig)) (k : String) (v : TargetConfig) :
    (dictInsert m k v).lookup k = some v := by
  by_cases hs : (m.lookup k).isSome = true
  · unfold dictInsert
    rw [if_pos hs]
    exact lookup_map_replace_self hs
  · have hnone : m.lookup k = none := by
      cases h : m.lookup k
      · rfl
      · rw [h] at hs
        simp at hs
    unfold dictInsert
    rw [if_neg hs, lookup_append]
    simp [hnone, List.lookup]

/- dictInsert leaves other keys untouched. -/
theorem dictInsert_lookup_other (m : List (String × TargetConfig)) (k k' : String) (v : TargetConfig)
    (hne : k' ≠ k) : (dictInsert m k v).lookup k' = m.lookup k' := by
  by_cases hs : (m.lookup k).isSome = true
  · unfold dictInsert
    rw [if_pos hs]
    exact lookup_map_replace_other hne m
  · unfold dictInsert
    rw [if_neg hs, lookup_append]
    have hk : (k' == k) = false := beq_eq_false_iff_ne.mpr hne
    cases h : m.lookup k' <;> simp [h, List.lookup, hk]

/- Every loaded target stays reachable under its name. -/
theorem load_lookup : ∀ (ts : List TargetConfig) (t : TargetConfig), t ∈ ts →
    ∃ c, (load_target_configurations ts).lookup t.name = some c := by
  intro ts
  induction ts using List.reverseRecOn with
  | nil => intro t ht; simp at ht
  | append_singleton ts x ih =>
    intro t ht
    have hload : load_target_configurations (ts ++ [x]) =
        dictInsert (load_target_configurations ts) x.name x := by
      simp [load_target_configurations, List.foldl_append]
    rcases List.mem_append.mp ht with h | h
    · obtain ⟨c, hc⟩ := ih t h
      by_cases hn : t.name = x.name
      · exact ⟨x, by rw [hload, hn]; exact dictInsert_lookup_self _ _ _⟩
      · exact ⟨c, by rw [hload, dictInsert_lookup_other _ _ _ _ hn]; exact hc⟩
    · have hx : t = x := by simpa using h
      subst hx
      exact ⟨t, by rw [hload]; exact dictInsert_lookup_self _ _ _⟩

/-- C6: the post-load check fails fatally with a diagnostic exactly when
the mapping lacks the app target or lacks a prebuilt target under both
aliases zephyr_prebuilt and zephyr_pre0; when both required targets are
present the mapping is passed on unchanged, and load_target_configurations
keeps every target reachable under its name. -/
theorem required_targets_fatal :
    (∀ m : List (String × TargetConfig),
      ((∃ e, requiredTargetsCheck m = Except.error e) ↔
        ((m.lookup "app").isNone ∨
          ((m.lookup "zephyr_prebuilt").isNone ∧ (m.lookup "zephyr_pre0").isNone))) ∧
      (requiredTargetsCheck m = Except.ok m ↔
        ¬((m.lookup "app").isNone ∨
          ((m.lookup "zephyr_prebuilt").isNone ∧ (m.lookup "zephyr_pre0").isNone)))) ∧
    (∀ (ts : List TargetConfig) (t : TargetConfig), t ∈ ts →
      ∃ c, (load_target_configurations ts).lookup t.name = some c) := by
  refine ⟨?_, load_lookup⟩
  intro m
  cases happ : m.lookup "app" <;> cases hzp : m.lookup "zephyr_prebuilt" <;>
    cases hz0 : m.lookup "zephyr_pre0" <;>
      simp [requiredTargetsCheck, happ, hzp, hz0]

/- C6 witness: a singleton load keeps its target indexed by name, and
   the membership hypothesis is discharged at the concrete list. -/
theorem required_targets_fatal_witness :
    ∃ c, (load_target_configurations [TargetConfig.mk "app"]).lookup (TargetConfig.mk "app").name = some c :=
  required_targets_fatal.2 [TargetConfig.mk "app"] (TargetConfig.mk "app")
    (List.mem_singleton.mpr rfl)

/- A kept argument under allowed ["-"] starts with a dash. -/
theorem keep_dash {ignore : List String} {x : String} (hk : keepArg ["-"] ignore x = true) :
    strStartsWith x "-" = true := by
  simp [keepArg] at hk
  exact hk.1

/- A kept argument under the link ignore list starts with none of the
   whole-archive or -T markers. -/
theorem keep_markers_false {x : String} (hk : keepArg ["-"] ignore_flags x = true) :
    strStartsWith x "-Wl,--whole-archive" = false ∧
    strStartsWith x "-Wl,--no-whole-archive" = false ∧
    strStartsWith x "-Wl,-T" = false := by
  simp [keepArg, ignore_flags] at hk
  obtain ⟨-, -, h1, h2, h3⟩ := hk
  exact ⟨h1, h2, h3⟩

/- Every element surviving the filter walk is either kept itself or is
   the immediate non-dash follower of a kept element. -/
theorem filterGo_mem_aux (allowed ignore : List String) :
    ∀ (n : Nat) (args : List String), args.length ≤ n → ∀ x ∈ filterGo allowed ignore args,
      keepArg allowed ignore x = true ∨
      (strStartsWith x "-" = false ∧
        ∃ l1 y l2, args = l1 ++ y :: x :: l2 ∧ keepArg allowed ignore y = true) := by
  intro n
  induction n with
  | zero =>
    intro args hlen x hx
    have hargs : args = [] := List.length_eq_zero.mp (Nat.le_zero.mp hlen)
    subst hargs
    simp [filterGo] at hx
  | succ n ih =>
    intro args hlen x hx
    cases args with
    | nil => simp [filterGo] at hx
    | cons a rest =>
      by_cases hk : keepArg allowed ignore a = true
      · cases rest with
        | nil =>
          have hxa : x = a := by simpa [filterGo, hk] using hx
          exact Or.inl (hxa ▸ hk)
        | cons b rest2 =>
          by_cases hb : strStartsWith b "-" = true
          · have hx2 : x = a ∨ x ∈ filterGo allowed ignore (b :: rest2) := by
              simpa [filterGo, hk, hb] using hx
            rcases hx2 with rfl | hx2
            · exact Or.inl hk
            · have hlen2 : (b :: rest2).length ≤ n := by
                simp at hlen ⊢
                omega
              rcases ih (b :: rest2) hlen2 x hx2 with h | ⟨hd, l1, y, l2, heq, hy⟩
              · exact Or.inl h
              · exact Or.inr ⟨hd, a :: l1, y, l2, by rw [List.cons_append, heq], hy⟩
          · have hb' : strStartsWith b "-" = false := by
              cases hbv : strStartsWith b "-"
              · rfl
              · exact absurd hbv hb
            have hx2 : x = a ∨ x = b ∨ x ∈ filterGo allowed ignore rest2 := by
              simpa [filterGo, hk, hb'] using hx
            rcases hx2 with rfl | rfl | hx2
            · exact Or.inl hk
            · exact Or.inr ⟨hb', [], a, rest2, rfl, hk⟩
            · have hlen2 : rest2.length ≤ n := by
                simp at hlen
                omega
              rcases ih rest2 hlen2 x hx2 with h | ⟨hd, l1, y, l2, heq, hy⟩
              · exact Or.inl h
              · exact Or.inr ⟨hd, a :: b :: l1, y, l2, by rw [heq]; rfl, hy⟩
      · have hk2 : keepArg allowed ignore a = false := by
          cases hkv : keepArg allowed ignore a
          · rfl
          · exact absurd hkv hk
        cases rest with
        | nil =>
          simp [filterGo, hk2] at hx
        | cons b rest2 =>
          have hx2 : x ∈ filterGo allowed ignore (b :: rest2) := by
            simpa [filterGo, hk2] using hx
          have hlen2 : (b :: rest2).length ≤ n := by
            simp at hlen ⊢
            omega
          rcases ih (b :: rest2) hlen2 x hx2 with h | ⟨hd, l1, y, l2, heq, hy⟩
          · exact Or.inl h
          · exact Or.inr ⟨hd, a :: l1, y, l2, by rw [List.cons_append, heq], hy⟩

/-- C5 (amended): in the defensive filtering of the final link flags,
every surviving token either starts with a dash and no ignored prefix,
or is the immediate non-dash argument of such a kept flag; tokens
starting with the whole-archive markers or with -Wl,-T are always
removed at this stage, because they appear in the ignore list, and are
re-introduced later through dedicated mechanisms. -/
theorem filter_args_markers_removed (args : List String) (x : String)
    (hx : x ∈ filter_args args ["-"] ignore_flags) :
    strStartsWith x "-Wl,--whole-archive" = false ∧
    strStartsWith x "-Wl,--no-whole-archive" = false ∧
    strStartsWith x "-Wl,-T" = false ∧
    (strStartsWith x "-" = false →
      ∃ l1 y l2, args = l1 ++ y :: x :: l2 ∧ keepArg ["-"] ignore_flags y = true) := by
  have hx' : x ∈ filterGo ["-"] ignore_flags args := by
    simpa [filter_args] using hx
  rcases filterGo_mem_aux ["-"] ignore_flags args.length args le_rfl x hx' with hk | ⟨hd, hdec⟩
  · obtain ⟨m1, m2, m3⟩ := keep_markers_false hk
    refine ⟨m1, m2, m3, fun hdash => ?_⟩
    rw [keep_dash hk] at hdash
    cases hdash
  · have nod : ∀ p : String, isPrefixB "-".data p.data = true → strStartsWith x p = false := by
      intro p hp
      cases hv : strStartsWith x p
      · rfl
      · rw [startsWith_trans hp hv] at hd
        cases hd
    exact ⟨nod "-Wl,--whole-archive" (by decide), nod "-Wl,--no-whole-archive" (by decide),
      nod "-Wl,-T" (by decide), fun _ => hdec⟩

/- C5 witness: a non-dash object token survives only as the follower of
   the kept flag before it. -/
theorem filter_args_markers_removed_witness :
    strStartsWith "obj.o" "-Wl,--whole-archive" = false ∧
    strStartsWith "obj.o" "-Wl,--no-whole-archive" = false ∧
    strStartsWith "obj.o" "-Wl,-T" = false ∧
    (strStartsWith "obj.o" "-" = false →
      ∃ l1 y l2, ["-O2", "obj.o"] = l1 ++ y :: "obj.o" :: l2 ∧ keepArg ["-"] ignore_flags y = true) :=
  filter_args_markers_removed ["-O2", "obj.o"] "obj.o" (by decide)

/- C5 counterexample: the whole-archive marker present in the input is
   removed by the filtering stage, not preserved. -/
theorem filter_args_counterexample :
    filter_args ["-Wl,--whole-archive"] ["-"] ignore_flags = [] := by decide

/- The ordinary-fragment step never drops accumulated flags. -/
theorem ccStep_mem {pf : String → List String} {out : List String} {bf x : String}
    (hx : x ∈ out) : x ∈ ccStep pf out bf := by
  unfold ccStep
  split
  · exact appendUnique_mem _ _ hx
  · exact hx

/- A successful walk keeps every flag accumulated so far. -/
theorem ccWalk_mono (pf : String → List String) :
    ∀ (n : Nat) (l : List String), l.length ≤ n → ∀ out r, ccWalk pf out l = some r →
      ∀ x ∈ out, x ∈ r := by
  intro n
  induction n with
  | zero =>
    intro l hl out r hw x hx
    have hnil : l = [] := List.length_eq_zero.mp (Nat.le_zero.mp hl)
    subst hnil
    simp [ccWalk] at hw
    rw [← hw]
    exact hx
  | succ n ih =>
    intro l hl out r hw x hx
    cases l with
    | nil =>
      simp [ccWalk] at hw
      rw [← hw]
      exact hx
    | cons bf rest =>
      cases rest with
      | nil =>
        by_cases hs : isSpecialFrag bf = true
        · simp [ccWalk, hs] at hw
        · have hs2 : isSpecialFrag bf = false := by
            cases hv : isSpecialFrag bf
            · rfl
            · exact absurd hv hs
          simp [ccWalk, hs2] at hw
          rw [← hw]
          exact ccStep_mem hx
      | cons fp rest2 =>
        by_cases hs : isSpecialFrag bf = true
        · have hw2 : ccWalk pf (out ++ [bf ++ fp]) rest2 = some r := by
            simpa [ccWalk, hs] using hw
          have hlen2 : rest2.length ≤ n := by
            simp at hl
            omega
          exact ih rest2 hlen2 _ r hw2 x (List.mem_append_left _ hx)
        · have hs2 : isSpecialFrag bf = false := by
            cases hv : isSpecialFrag bf
            · rfl
            · exact absurd hv hs
          have hw2 : ccWalk pf (ccStep pf out bf) (fp :: rest2) = some r := by
            simpa [ccWalk, hs2] using hw
          have hlen2 : (fp :: rest2).length ≤ n := by
            simp at hl ⊢
            omega
          exact ih (fp :: rest2) hlen2 _ r hw2 x (ccStep_mem hx)

/- A self-contained prefix of the walk is consumed exactly, and the
   walk continues on the remainder from the produced flag list. -/
theorem ccWalk_selfContained (pf : String → List String) :
    ∀ (n : Nat) (l1 : List String), l1.length ≤ n → selfContained l1 = true → ∀ out l2,
      ∃ o, ccWalk pf out l1 = some o ∧ ccWalk pf out (l1 ++ l2) = ccWalk pf o l2 := by
  intro n
  induction n with
  | zero =>
    intro l1 hl _ out l2
    have hnil : l1 = [] := List.length_eq_zero.mp (Nat.le_zero.mp hl)
    subst hnil
    exact ⟨out, rfl, rfl⟩
  | succ n ih =>
    intro l1 hl hsc out l2
    cases l1 with
    | nil => exact ⟨out, rfl, rfl⟩
    | cons bf rest =>
      cases rest with
      | nil =>
        have hs : isSpecialFrag bf = false := by
          simpa [selfContained] using hsc
        refine ⟨ccStep pf out bf, by simp [ccWalk, hs], ?_⟩
        cases l2 with
        | nil => simp [ccWalk, hs]
        | cons y l2b => simp [ccWalk, hs]
      | cons fp rest2 =>
        by_cases hs : isSpecialFrag bf = true
        · have hsc2 : selfContained rest2 = true := by
            simpa [selfContained, hs] using hsc
          have hlen2 : rest2.length ≤ n := by
            simp at hl
            omega
          obtain ⟨o, h1, h2⟩ := ih rest2 hlen2 hsc2 (out ++ [bf ++ fp]) l2
          refine ⟨o, ?_, ?_⟩
          · simp only [ccWalk, hs, if_true]
            exact h1
          · simp only [List.cons_append, ccWalk, hs, if_true]
            exact h2
        · have hs2 : isSpecialFrag bf = false := by
            cases hv : isSpecialFrag bf
            · rfl
            · exact absurd hv hs
          have hsc2 : selfContained (fp :: rest2) = true := by
            simpa [selfContained, hs2] using hsc
          have hlen2 : (fp :: rest2).length ≤ n := by
            simp at hl ⊢
            omega
          obtain ⟨o, h1, h2⟩ := ih (fp :: rest2) hlen2 hsc2 (ccStep pf out bf) l2
          refine ⟨o, ?_, ?_⟩
          · simp only [ccWalk, hs2, Bool.false_eq_true, if_false]
            exact h1
          · simp only [List.cons_append, ccWalk, hs2, Bool.false_eq_true, if_false]
            simp only [List.cons_append] at h2
            exact h2

/-- C2 (amended): when the walk reaches a fragment trimming to exactly
-imacros or -include (after a self-contained prefix), the pair formed
with the following fragment contributes exactly one CCFLAGS token, the
raw concatenation of the two fragment texts with no inserted separator,
and the path fragment is consumed rather than processed on its own; the
joined token is present in every successful final flag list, and the
flag or path can reappear as separate entries only through the
tokenization of other fragments. -/
theorem include_pairing (pf : String → List String) (pre suf : List String) (flag path : String)
    (hpre : selfContained pre = true) (hflag : isSpecialFrag flag = true) :
    ∃ o, ccWalk pf [] pre = some o ∧
      ccWalk pf [] (pre ++ flag :: path :: suf) = ccWalk pf (o ++ [flag ++ path]) suf ∧
      ∀ r, ccWalk pf (o ++ [flag ++ path]) suf = some r → (flag ++ path) ∈ r := by
  obtain ⟨o, h1, h2⟩ := ccWalk_selfContained pf pre.length pre le_rfl hpre [] (flag :: path :: suf)
  refine ⟨o, h1, ?_, ?_⟩
  · rw [h2]
    simp [ccWalk, hflag]
  · intro r hr
    exact ccWalk_mono pf suf.length suf le_rfl _ r hr _
      (List.mem_append_right _ (List.mem_singleton.mpr rfl))

/- C2 witness at a concrete prefix, flag and path. -/
theorem include_pairing_witness :
    ∃ o, ccWalk (fun _ => []) [] ["-O2"] = some o ∧
      ccWalk (fun _ => []) [] (["-O2"] ++ "-include" :: "foo.h" :: []) =
        ccWalk (fun _ => []) (o ++ ["-include" ++ "foo.h"]) [] ∧
      ∀ r, ccWalk (fun _ => []) (o ++ ["-include" ++ "foo.h"]) [] = some r →
        ("-include" ++ "foo.h") ∈ r :=
  include_pairing (fun _ => []) ["-O2"] [] "-include" "foo.h" (by decide) (by decide)

/- C2 counterexample: in the fragment list -imacros, -include, foo.h
   the -include fragment is consumed as the path of -imacros, so the
   flag list never receives the joined token -includefoo.h even though
   -include is directly followed by a path fragment. -/
theorem include_pairing_counterexample :
    ccWalk (fun _ => []) [] ["-imacros", "-include", "foo.h"] = some ["-imacros-include"] ∧
    ("-includefoo.h" ∉ (["-imacros-include"] : List String)) :=
  ⟨by decide, by decide⟩

/- Totality of the walk when the final fragment is not special. -/
theorem ccWalk_total (pf : String → List String) :
    ∀ (n : Nat) (l : List String), l.length ≤ n →
      (∀ x, l.getLast? = some x → isSpecialFrag x = false) → ∀ out,
      (ccWalk pf out l).isSome = true := by
  intro n
  induction n with
  | zero =>
    intro l hl _ out
    have hnil : l = [] := List.length_eq_zero.mp (Nat.le_zero.mp hl)
    subst hnil
    simp [ccWalk]
  | succ n ih =>
    intro l hl hlast out
    cases l with
    | nil => simp [ccWalk]
    | cons bf rest =>
      cases rest with
      | nil =>
        have hs : isSpecialFrag bf = false := hlast bf (by simp)
        simp [ccWalk, hs]
      | cons fp rest2 =>
        by_cases hs : isSpecialFrag bf = true
        · have hlast2 : ∀ x, rest2.getLast? = some x → isSpecialFrag x = false := by
            intro x hx
            apply hlast
            cases rest2 with
            | nil => cases hx
            | cons r rs =>
              rw [List.getLast?_cons_cons, List.getLast?_cons_cons]
              exact hx
          have hlen2 : rest2.length ≤ n := by
            simp at hl
            omega
          simp only [ccWalk, hs, if_true]
          exact ih rest2 hlen2 hlast2 _
        · have hs2 : isSpecialFrag bf = false := by
            cases hv : isSpecialFrag bf
            · rfl
            · exact absurd hv hs
          have hlast2 : ∀ x, (fp :: rest2).getLast? = some x → isSpecialFrag x = false := by
            intro x hx
            apply hlast
            rw [List.getLast?_cons_cons]
            exact hx
          have hlen2 : (fp :: rest2).length ≤ n := by
            simp at hl ⊢
            omega
          simp only [ccWalk, hs2, Bool.false_eq_true, if_false]
          exact ih (fp :: rest2) hlen2 hlast2 _

/-- C10 (amended): the positional flag-fragment walk accesses only
valid indices whenever the final fragment does not trim to -imacros or
-include; a fragment that does trim to one of these and is reached in
flag position as the last remaining element — that is, one preceded by
a self-contained prefix, so it is not consumed as the path argument of
an immediately preceding special fragment — makes the access at index
i+1 out of range. -/
theorem ccwalk_index_safety :
    (∀ (pf : String → List String) (out frags : List String),
      (∀ x, frags.getLast? = some x → isSpecialFrag x = false) →
      (ccWalk pf out frags).isSome = true) ∧
    (∀ (pf : String → List String) (out pre : List String) (bf : String),
      selfContained pre = true → isSpecialFrag bf = true →
      ccWalk pf out (pre ++ [bf]) = none) := by
  refine ⟨fun pf out frags h => ccWalk_total pf frags.length frags le_rfl h out, ?_⟩
  intro pf out pre bf hpre hs
  obtain ⟨o, h1, h2⟩ := ccWalk_selfContained pf pre.length pre le_rfl hpre out [bf]
  rw [h2]
  simp [ccWalk, hs]

/- C10 witness: a list ending in a plain fragment walks to completion,
   and a trailing -include reached in flag position after a consumed
   -imacros pair fails with the out-of-range access. -/
theorem ccwalk_index_safety_witness :
    (ccWalk (fun _ => []) [] ["-include", "a.h"]).isSome = true ∧
    ccWalk (fun _ => []) [] (["-imacros", "a.h"] ++ ["-include"]) = none :=
  ⟨ccwalk_index_safety.1 (fun _ => []) [] ["-include", "a.h"]
      (by
        intro x hx
        have hx2 : x = "a.h" := by simpa using hx.symm
        subst hx2
        decide),
   ccwalk_index_safety.2 (fun _ => []) [] ["-imacros", "a.h"] "-include"
      (by decide) (by decide)⟩

/- C10 counterexample: the fragment list -include, -include ends with a
   special fragment, yet the walk is total because the final fragment is
   consumed as the path of the first one. -/
theorem ccwalk_final_special_counterexample :
    ccWalk (fun _ => []) [] ["-include", "-include"] = some ["-include-include"] := by decide

/- Characters produced by the replacement scan come from the input or
   from the replacement text. -/
theorem replaceGo_chars {pat rep : List Char} :
    ∀ (fuel : Nat) (l : List Char) (ch : Char), ch ∈ replaceGo pat rep fuel l →
      ch ∈ l ∨ ch ∈ rep := by
  intro fuel
  induction fuel with
  | zero => intro l ch h; exact Or.inl h
  | succ n ih =>
    intro l ch h
    cases l with
    | nil => simp [replaceGo] at h
    | cons c rest =>
      rw [replaceGo] at h
      split at h
      · rcases List.mem_append.mp h with h2 | h2
        · exact Or.inr h2
        · rcases ih _ ch h2 with h3 | h3
          · exact Or.inl (List.mem_cons_of_mem c (List.drop_subset _ _ h3))
          · exact Or.inr h3
      · rcases List.mem_cons.mp h with h2 | h2
        · exact Or.inl (h2 ▸ List.mem_cons_self c rest)
        · rcases ih rest ch h2 with h3 | h3
          · exact Or.inl (List.mem_cons_of_mem c h3)
          · exact Or.inr h3

/- Characters surviving a trim come from the original list. -/
theorem trimChars_subset {l : List Char} {ch : Char} (h : ch ∈ trimChars l) : ch ∈ l := by
  unfold trimChars at h
  rw [List.mem_reverse] at h
  have h2 := List.dropWhile_subset _ h
  rw [List.mem_reverse] at h2
  exact List.dropWhile_subset _ h2

/- Replacing a single character that does not occur is the identity. -/
theorem replaceGo_singleton_id {q : Char} {rep : List Char} :
    ∀ (fuel : Nat) (l : List Char), (∀ ch ∈ l, ch ≠ q) → replaceGo [q] rep fuel l = l := by
  intro fuel
  induction fuel with
  | zero => intro l _; rfl
  | succ n ih =>
    intro l h
    cases l with
    | nil => rfl
    | cons c rest =>
      have hc : (c == q) = false := beq_eq_false_iff_ne.mpr (h c (List.mem_cons_self c rest))
      rw [replaceGo]
      have hpre : isPrefixB [q] (c :: rest) = false := by
        simp [isPrefixB]
        exact beq_eq_false_iff_ne.mp (by rw [BEq.comm] at hc; exact hc)
      rw [hpre]
      simp
      exact ih rest (fun ch hm => h ch (List.mem_cons_of_mem c hm))

/- Quote stripping is the identity on a quote-free string. -/
theorem strReplace_quote_id {lp : String} (h : ∀ ch ∈ lp.data, ch ≠ '"') :
    strReplace lp "\"" "" = lp := by
  unfold strReplace
  have hq : (("\"" : String).data.isEmpty) = false := rfl
  rw [hq]
  simp only [Bool.false_eq_true, if_false]
  have h2 : replaceGo ("\"" : String).data ("" : String).data lp.data.length lp.data = lp.data := by
    have hd : ("\"" : String).data = ['"'] := rfl
    rw [hd]
    exact replaceGo_singleton_id _ _ h
  rw [h2]

/- Characters of a replacement with empty replacement text come from
   the original string. -/
theorem strReplace_empty_chars {s pat : String} {ch : Char}
    (h : ch ∈ (strReplace s pat "").data) : ch ∈ s.data := by
  unfold strReplace at h
  split at h
  · exact h
  · rcases replaceGo_chars _ _ _ h with h2 | h2
    · exact h2
    · simp at h2

/- The -L library path computed from a quote-free fragment is itself
   quote-free. -/
theorem libPath_quote_free {f : LinkFragment}
    (hq : ∀ ch ∈ (processedFrag f).data, ch ≠ '"') :
    ∀ ch ∈ (strTrim (strReplace (processedFrag f) "-L" "")).data, ch ≠ '"' := by
  intro ch hm
  exact hq ch (strReplace_empty_chars (trimChars_subset hm))

/- The bucket dispatch preserves freedom from duplicates in lib_paths,
   provided the fragment, when it is a -L fragment, is quote-free. -/
theorem linkBuckets_libPaths_nodup (isFile : String → Bool) (w : Bool) (la : LinkArgs)
    (f : LinkFragment)
    (hq : strStartsWith (processedFrag f) "-L" = true → ∀ ch ∈ (processedFrag f).data, ch ≠ '"')
    (hnd : la.lib_paths.Nodup) : (linkBuckets isFile w la f).lib_paths.Nodup := by
  unfold linkBuckets
  dsimp only
  split
  · exact hnd
  split
  · split
    · exact hnd
    split
    · split
      · exact hnd
      · rename_i hL hcont
        have hcont2 : la.lib_paths.contains (strTrim (strReplace (processedFrag f) "-L" "")) = false := by
          cases hv : la.lib_paths.contains (strTrim (strReplace (processedFrag f) "-L" ""))
          · rfl
          · exact absurd hv hcont
        have hid := strReplace_quote_id (libPath_quote_free (hq hL))
        rw [hid]
        have hnm := not_mem_of_contains_false hcont2
        simp [List.nodup_append, hnd, hnm]
    split
    · exact hnd
    split
    · split
      · exact hnd
      · rename_i hcont
        have hcont2 : la.lib_paths.contains (dirnamePosix (processedFrag f)) = false := by
          cases hv : la.lib_paths.contains (dirnamePosix (processedFrag f))
          · rfl
          · exact absurd hv hcont
        have hnm := not_mem_of_contains_false hcont2
        simp [List.nodup_append, hnd, hnm]
    split
    · split
      · exact hnd
      · exact hnd
    · exact hnd
  · exact hnd

/- One link step preserves freedom from duplicates in lib_paths,
   provided the fragment, when it is a -L fragment, is quote-free. -/
theorem linkStep_libPaths_nodup (isFile : String → Bool) (st : Bool × LinkArgs) (f : LinkFragment)
    (hq : strStartsWith (processedFrag f) "-L" = true → ∀ ch ∈ (processedFrag f).data, ch ≠ '"')
    (hnd : st.2.lib_paths.Nodup) : (linkStep isFile st f).2.lib_paths.Nodup := by
  unfold linkStep
  split
  · exact hnd
  · exact linkBuckets_libPaths_nodup isFile (markerUpd st.1 f) st.2 f hq hnd

/-- C9 (amended): the lib_paths list of the extracted link plan is free
of duplicates whenever no fragment whose processed text starts with -L
contains a double-quote character; in general the membership test that
guards the -L append is made on the un-quote-stripped path while the
appended value is quote-stripped, so a quoted and an unquoted spelling
of the same path can produce a duplicate. -/
theorem lib_paths_nodup (isFile : String → Bool) (frags : List LinkFragment)
    (hq : ∀ f ∈ frags, strStartsWith (processedFrag f) "-L" = true →
      ∀ ch ∈ (processedFrag f).data, ch ≠ '"') :
    (extract_link_args isFile frags).lib_paths.Nodup := by
  have main : ∀ (l : List LinkFragment) (st : Bool × LinkArgs),
      (∀ f ∈ l, strStartsWith (processedFrag f) "-L" = true →
        ∀ ch ∈ (processedFrag f).data, ch ≠ '"') →
      st.2.lib_paths.Nodup → (List.foldl (linkStep isFile) st l).2.lib_paths.Nodup := by
    intro l
    induction l with
    | nil => intro st _ hnd; exact hnd
    | cons f l ih =>
      intro st hql hnd
      rw [List.foldl_cons]
      exact ih _ (fun g hg => hql g (List.mem_cons_of_mem f hg))
        (linkStep_libPaths_nodup isFile st f (hql f (List.mem_cons_self f l)) hnd)
  exact main frags (false, emptyLinkArgs) hq List.nodup_nil

/- C9 witness: a quoted flags fragment does not violate the hypothesis,
   which constrains only -L fragments, and the plan stays duplicate
   free. -/
theorem lib_paths_nodup_witness :
    (extract_link_args (fun _ => false)
      [⟨"-DX=\"1\"", "flags"⟩, ⟨"-L/opt/lib", "libraries"⟩]).lib_paths.Nodup :=
  lib_paths_nodup (fun _ => false) [⟨"-DX=\"1\"", "flags"⟩, ⟨"-L/opt/lib", "libraries"⟩]
    (by
      intro f hf hL
      rcases List.mem_cons.mp hf with rfl | hf2
      · exact absurd hL (by decide)
      · have hf3 : f = ⟨"-L/opt/lib", "libraries"⟩ := List.mem_singleton.mp hf2
        subst hf3
        decide)

/- C9 counterexample: the fragments -Lfoo and -L"foo" name the same
   path, but the dedup check compares the quoted spelling before quote
   stripping, so the path foo is appended twice. -/
theorem lib_paths_dup_counterexample :
    (extract_link_args (fun _ => false)
      [⟨"-Lfoo", "libraries"⟩, ⟨"-L\"foo\"", "libraries"⟩]).lib_paths = ["foo", "foo"] ∧
    ¬ (["foo", "foo"] : List String).Nodup :=
  ⟨by decide, by decide⟩

/- Normal form of the per-fragment state transition. -/
theorem markerUpd_eq (b : Bool) (f : LinkFragment) :
    markerUpd b f =
      if skipFragB f then b
      else if containsStr (processedFrag f) endMarker then false
      else if containsStr (processedFrag f) beginMarker then true else b := by
  unfold markerUpd
  cases hsk : skipFragB f <;> cases he : containsStr (processedFrag f) endMarker <;>
    cases hb2 : containsStr (processedFrag f) beginMarker <;> simp [hsk, he, hb2]

/- The state component of one link step is the marker transition. -/
theorem linkStep_fst (isFile : String → Bool) (st : Bool × LinkArgs) (f : LinkFragment) :
    (linkStep isFile st f).1 = markerUpd st.1 f := by
  unfold linkStep
  split
  · rename_i hsk
    unfold markerUpd
    rw [if_pos hsk]
  · rfl

/- The state component of the whole fold is the marker fold. -/
theorem foldl_linkStep_fst (isFile : String → Bool) :
    ∀ (l : List LinkFragment) (st : Bool × LinkArgs),
      (List.foldl (linkStep isFile) st l).1 = List.foldl markerUpd st.1 l
  | [], _ => rfl
  | f :: l, st => by
    rw [List.foldl_cons, List.foldl_cons, foldl_linkStep_fst isFile l, linkStep_fst]

/- Marker state of a list extended on the right. -/
theorem markerState_append (pre : List LinkFragment) (f : LinkFragment) :
    markerState (pre ++ [f]) = markerUpd (markerState pre) f := by
  simp [markerState, List.foldl_append]

/- The whole-archive witness predicate is empty for the empty list. -/
theorem wholeWitness_nil : ¬ WholeWitness [] := by
  rintro ⟨l1, g, l2, heq, -⟩
  have hg : g ∈ ([] : List LinkFragment) := by
    rw [heq]
    exact List.mem_append_right l1 (List.mem_cons_self g l2)
  simp at hg

/- Unfolding the whole-archive witness predicate on a cons cell. -/
theorem wholeWitness_cons (f : LinkFragment) (l : List LinkFragment) :
    WholeWitness (f :: l) ↔
      ((skipFragB f = false ∧ containsStr (processedFrag f) beginMarker = true ∧
        containsStr (processedFrag f) endMarker = false ∧
        ∀ h ∈ l, skipFragB h = false → containsStr (processedFrag h) endMarker = false) ∨
        WholeWitness l) := by
  constructor
  · rintro ⟨l1, g, l2, heq, hg1, hg2, hg3, hg4⟩
    cases l1 with
    | nil =>
      simp only [List.nil_append] at heq
      injection heq with hfg hl
      subst hfg
      subst hl
      exact Or.inl ⟨hg1, hg2, hg3, hg4⟩
    | cons a l1b =>
      simp only [List.cons_append] at heq
      injection heq with hfa hrest
      exact Or.inr ⟨l1b, g, l2, hrest, hg1, hg2, hg3, hg4⟩
  · rintro (⟨h1b, h2b, h3b, h4b⟩ | ⟨l1, g, l2, heq, hg1, hg2, hg3, hg4⟩)
    · exact ⟨[], f, l, rfl, h1b, h2b, h3b, h4b⟩
    · exact ⟨f :: l1, g, l2, by rw [List.cons_append, heq], hg1, hg2, hg3, hg4⟩

/- Characterization of the marker fold: the state is set exactly when
   some non-skipped fragment carries the begin marker without the end
   marker and no later non-skipped fragment carries the end marker, or
   the state was already set and no non-skipped fragment clears it. -/
theorem foldl_markerUpd_true_iff : ∀ (l : List LinkFragment) (b : Bool),
    List.foldl markerUpd b l = true ↔
      (WholeWitness l ∨ (b = true ∧
        ∀ h ∈ l, skipFragB h = false → containsStr (processedFrag h) endMarker = false)) := by
  intro l
  induction l with
  | nil =>
    intro b
    simp [wholeWitness_nil]
  | cons f l ih =>
    intro b
    rw [List.foldl_cons, ih (markerUpd b f), wholeWitness_cons, markerUpd_eq]
    cases hsk : skipFragB f <;>
      cases he : containsStr (processedFrag f) endMarker <;>
        cases hb2 : containsStr (processedFrag f) beginMarker <;>
          (simp [hsk, he, hb2, List.forall_mem_cons]; try tauto)

/- The bucket dispatch only ever appends to whole_libs. -/
theorem linkBuckets_whole_mono (isFile : String → Bool) (w : Bool) (la : LinkArgs)
    (f : LinkFragment) :
    ∃ t, (linkBuckets isFile w la f).project_libs.whole_libs =
      la.project_libs.whole_libs ++ t := by
  unfold linkBuckets
  dsimp only
  split
  · exact ⟨[], by simp⟩
  split
  · split
    · exact ⟨[], by simp⟩
    split
    · split
      · exact ⟨[], by simp⟩
      · exact ⟨[], by simp⟩
    split
    · exact ⟨[], by simp⟩
    split
    · exact ⟨[], by simp⟩
    split
    · split
      · exact ⟨_, rfl⟩
      · exact ⟨[], by simp⟩
    · exact ⟨[], by simp⟩
  · exact ⟨[], by simp⟩

/- The bucket dispatch only ever appends to generic_libs. -/
theorem linkBuckets_generic_mono (isFile : String → Bool) (w : Bool) (la : LinkArgs)
    (f : LinkFragment) :
    ∃ t, (linkBuckets isFile w la f).project_libs.generic_libs =
      la.project_libs.generic_libs ++ t := by
  unfold linkBuckets
  dsimp only
  split
  · exact ⟨[], by simp⟩
  split
  · split
    · exact ⟨[], by simp⟩
    split
    · split
      · exact ⟨[], by simp⟩
      · exact ⟨[], by simp⟩
    split
    · exact ⟨[], by simp⟩
    split
    · exact ⟨[], by simp⟩
    split
    · split
      · exact ⟨[], by simp⟩
      · exact ⟨_, rfl⟩
    · exact ⟨[], by simp⟩
  · exact ⟨[], by simp⟩

/- One link step only ever appends to whole_libs. -/
theorem linkStep_whole_mono (isFile : String → Bool) (st : Bool × LinkArgs) (f : LinkFragment) :
    ∃ t, (linkStep isFile st f).2.project_libs.whole_libs =
      st.2.project_libs.whole_libs ++ t := by
  unfold linkStep
  split
  · exact ⟨[], by simp⟩
  · exact linkBuckets_whole_mono isFile (markerUpd st.1 f) st.2 f

/- One link step only ever appends to generic_libs. -/
theorem linkStep_generic_mono (isFile : String → Bool) (st : Bool × LinkArgs) (f : LinkFragment) :
    ∃ t, (linkStep isFile st f).2.project_libs.generic_libs =
      st.2.project_libs.generic_libs ++ t := by
  unfold linkStep
  split
  · exact ⟨[], by simp⟩
  · exact linkBuckets_generic_mono isFile (markerUpd st.1 f) st.2 f

/- The fold only ever appends to whole_libs. -/
theorem foldl_whole_mono (isFile : String → Bool) :
    ∀ (l : List LinkFragment) (st : Bool × LinkArgs),
      ∃ t, (List.foldl (linkStep isFile) st l).2.project_libs.whole_libs =
        st.2.project_libs.whole_libs ++ t
  | [], st => ⟨[], by simp⟩
  | f :: l, st => by
    obtain ⟨t1, h1⟩ := linkStep_whole_mono isFile st f
    obtain ⟨t2, h2⟩ := foldl_whole_mono isFile l (linkStep isFile st f)
    exact ⟨t1 ++ t2, by rw [List.foldl_cons, h2, h1, List.append_assoc]⟩

/- The fold only ever appends to generic_libs. -/
theorem foldl_generic_mono (isFile : String → Bool) :
    ∀ (l : List LinkFragment) (st : Bool × LinkArgs),
      ∃ t, (List.foldl (linkStep isFile) st l).2.project_libs.generic_libs =
        st.2.project_libs.generic_libs ++ t
  | [], st => ⟨[], by simp⟩
  | f :: l, st => by
    obtain ⟨t1, h1⟩ := linkStep_generic_mono isFile st f
    obtain ⟨t2, h2⟩ := foldl_generic_mono isFile l (linkStep isFile st f)
    exact ⟨t1 ++ t2, by rw [List.foldl_cons, h2, h1, List.append_assoc]⟩

/- In the archive branch the step appends the fragment archive tokens
   to whole_libs or generic_libs according to the updated state. -/
theorem linkStep_archive (isFile : String → Bool) (st : Bool × LinkArgs) (f : LinkFragment)
    (hf : archiveBranch isFile f) :
    (linkStep isFile st f).2.project_libs.whole_libs =
      st.2.project_libs.whole_libs ++ (if markerUpd st.1 f then archTokens f else []) ∧
    (linkStep isFile st f).2.project_libs.generic_libs =
      st.2.project_libs.generic_libs ++ (if markerUpd st.1 f then [] else archTokens f) := by
  obtain ⟨h1, h2, h3, h4, h5⟩ := hf
  have g1 : strStartsWith (processedFrag f) "-l" = false := by
    cases hv : strStartsWith (processedFrag f) "-l"
    · rfl
    · exact absurd (@startsWith_trans (processedFrag f) "-l" "-" (by decide) hv) (by simp [h3])
  have g2 : strStartsWith (processedFrag f) "-Wl,-l" = false := by
    cases hv : strStartsWith (processedFrag f) "-Wl,-l"
    · rfl
    · exact absurd (@startsWith_trans (processedFrag f) "-Wl,-l" "-" (by decide) hv) (by simp [h3])
  have g3 : strStartsWith (processedFrag f) "-L" = false := by
    cases hv : strStartsWith (processedFrag f) "-L"
    · rfl
    · exact absurd (@startsWith_trans (processedFrag f) "-L" "-" (by decide) hv) (by simp [h3])
  have r1 : (strTrim f.role == "flags") = false := by
    rw [h2]
    decide
  have r2 : (strTrim f.role == "libraries") = true := by
    rw [h2]
    decide
  unfold linkStep
  rw [if_neg (by simp [h1])]
  show (linkBuckets isFile (markerUpd st.1 f) st.2 f).project_libs.whole_libs = _ ∧
    (linkBuckets isFile (markerUpd st.1 f) st.2 f).project_libs.generic_libs = _
  unfold linkBuckets
  dsimp only
  simp only [r1, r2, g1, g2, g3, h3, h4, h5]
  cases hw : markerUpd st.1 f <;> simp [hw, archTokens]

/-- C1 (amended): in extract_link_args, a role "libraries" fragment
reaching the final archive branch (it is not skipped, does not start
with a dash, is not an absolute existing file, and ends in ".a") has
its archive tokens appended to whole_libs when the whole-archive state
holds after its own marker update, and to generic_libs otherwise; the
state holds exactly when some earlier or same-position non-skipped
fragment carries the begin marker with no non-skipped fragment carrying
the end marker from there up to the categorized fragment.  Fragments
with empty trimmed text or role are skipped entirely and do not update
the state. -/
theorem whole_archive_categorization (isFile : String → Bool) (pre suf : List LinkFragment)
    (f : LinkFragment) (hf : archiveBranch isFile f) :
    (markerState (pre ++ [f]) = true ↔ WholeWitness (pre ++ [f])) ∧
    ∃ tw tg,
      (extract_link_args isFile (pre ++ f :: suf)).project_libs.whole_libs =
        (extract_link_args isFile pre).project_libs.whole_libs ++
          (if markerState (pre ++ [f]) then archTokens f else []) ++ tw ∧
      (extract_link_args isFile (pre ++ f :: suf)).project_libs.generic_libs =
        (extract_link_args isFile pre).project_libs.generic_libs ++
          (if markerState (pre ++ [f]) then [] else archTokens f) ++ tg := by
  constructor
  · simp only [markerState]
    rw [foldl_markerUpd_true_iff]
    simp
  · obtain ⟨harchW, harchG⟩ :=
      linkStep_archive isFile (List.foldl (linkStep isFile) (false, emptyLinkArgs) pre) f hf
    obtain ⟨tw, htw⟩ := foldl_whole_mono isFile suf
      (linkStep isFile (List.foldl (linkStep isFile) (false, emptyLinkArgs) pre) f)
    obtain ⟨tg, htg⟩ := foldl_generic_mono isFile suf
      (linkStep isFile (List.foldl (linkStep isFile) (false, emptyLinkArgs) pre) f)
    have hstate : (List.foldl (linkStep isFile) (false, emptyLinkArgs) pre).1 = markerState pre := by
      rw [foldl_linkStep_fst]
      rfl
    have hfold : extract_link_args isFile (pre ++ f :: suf) =
        (List.foldl (linkStep isFile)
          (linkStep isFile (List.foldl (linkStep isFile) (false, emptyLinkArgs) pre) f) suf).2 := by
      simp [extract_link_args, List.foldl_append]
    refine ⟨tw, tg, ?_, ?_⟩
    · rw [hfold, htw, harchW, hstate, ← markerState_append]
      simp [extract_link_args, List.append_assoc]
    · rw [hfold, htg, harchG, hstate, ← markerState_append]
      simp [extract_link_args, List.append_assoc]

/- C1 witness at a concrete whole-archive section. -/
theorem whole_archive_categorization_witness :
    (markerState ([⟨"-Wl,--whole-archive", "libraries"⟩] ++ [⟨"libfoo.a", "libraries"⟩]) = true ↔
      WholeWitness ([⟨"-Wl,--whole-archive", "libraries"⟩] ++ [⟨"libfoo.a", "libraries"⟩])) ∧
    ∃ tw tg,
      (extract_link_args (fun _ => false)
          ([⟨"-Wl,--whole-archive", "libraries"⟩] ++ ⟨"libfoo.a", "libraries"⟩ :: [])).project_libs.whole_libs =
        (extract_link_args (fun _ => false)
          [⟨"-Wl,--whole-archive", "libraries"⟩]).project_libs.whole_libs ++
          (if markerState ([⟨"-Wl,--whole-archive", "libraries"⟩] ++ [⟨"libfoo.a", "libraries"⟩])
            then archTokens ⟨"libfoo.a", "libraries"⟩ else []) ++ tw ∧
      (extract_link_args (fun _ => false)
          ([⟨"-Wl,--whole-archive", "libraries"⟩] ++ ⟨"libfoo.a", "libraries"⟩ :: [])).project_libs.generic_libs =
        (extract_link_args (fun _ => false)
          [⟨"-Wl,--whole-archive", "libraries"⟩]).project_libs.generic_libs ++
          (if markerState ([⟨"-Wl,--whole-archive", "libraries"⟩] ++ [⟨"libfoo.a", "libraries"⟩])
            then [] else archTokens ⟨"libfoo.a", "libraries"⟩) ++ tg :=
  whole_archive_categorization (fun _ => false) [⟨"-Wl,--whole-archive", "libraries"⟩] []
    ⟨"libfoo.a", "libraries"⟩ (by unfold archiveBranch; decide)

/- C1 counterexample: a begin-marker fragment with an empty role is
   skipped before the marker check, so the following archive fragment is
   categorized as generic even though it follows a fragment whose raw
   text contains the whole-archive begin marker. -/
theorem whole_archive_skip_counterexample :
    containsStr (processedFrag ⟨"-Wl,--whole-archive", ""⟩) beginMarker = true ∧
    (extract_link_args (fun _ => false)
      [⟨"-Wl,--whole-archive", ""⟩, ⟨"libx.a", "libraries"⟩]).project_libs.whole_libs = [] ∧
    (extract_link_args (fun _ => false)
      [⟨"-Wl,--whole-archive", ""⟩, ⟨"libx.a", "libraries"⟩]).project_libs.generic_libs = ["libx.a"] :=
  ⟨by decide, by decide, by decide⟩

/- The unix-path normalization never emits a backslash. -/
theorem toUnixGo_no_bs : ∀ (b : Bool) (l : List Char) (ch : Char), ch ∈ toUnixGo b l → ch ≠ '\\' := by
  intro b l
  induction l generalizing b with
  | nil => intro ch h; simp [toUnixGo] at h
  | cons c rest ih =>
    intro ch h
    rw [toUnixGo] at h
    split at h
    · split at h
      · exact ih true ch h
      · rcases List.mem_cons.mp h with rfl | h2
        · decide
        · exact ih true ch h2
    · rename_i hc
      rcases List.mem_cons.mp h with rfl | h2
      · intro he
        exact hc (by rw [he]; rfl)
      · exact ih false ch h2

/- The unix-path normalization is the identity on backslash-free input. -/
theorem toUnixGo_id : ∀ (b : Bool) (l : List Char), (∀ ch ∈ l, ch ≠ '\\') → toUnixGo b l = l := by
  intro b l
  induction l generalizing b with
  | nil => intro _; rfl
  | cons c rest ih =>
    intro h
    have hc : (c == '\\') = false :=
      beq_eq_false_iff_ne.mpr (h c (List.mem_cons_self c rest))
    rw [toUnixGo, hc]
    simp only [Bool.false_eq_true, if_false]
    rw [ih false (fun ch hm => h ch (List.mem_cons_of_mem c hm))]

theorem toUnixPath_no_bs {s : String} : ∀ ch ∈ (toUnixPath s).data, ch ≠ '\\' :=
  fun ch h => toUnixGo_no_bs false s.data ch h

theorem toUnixPath_id {s : String} (h : ∀ ch ∈ s.data, ch ≠ '\\') : toUnixPath s = s := by
  unfold toUnixPath
  rw [toUnixGo_id false s.data h]

/- A non-empty prefix pins down the head of the longer list. -/
theorem head_of_prefixB {a : Char} {pt l : List Char} (h : isPrefixB (a :: pt) l = true) :
    ∃ t, l = a :: t := by
  cases l with
  | nil => simp [isPrefixB] at h
  | cons c t =>
    simp only [isPrefixB, Bool.and_eq_true, beq_iff_eq] at h
    exact ⟨t, by rw [h.1]⟩

theorem startsWith_slash_of_head {s : String} {t : List Char} (h : s.data = '/' :: t) :
    strStartsWith s "/" = true := by
  unfold strStartsWith
  rw [show ("/" : String).data = ['/'] from rfl, h]
  simp [isPrefixB]

/- Components produced by the path splitter are non-empty, contain no
   slash, and keep any character property of the input. -/
theorem splitChars_props (P : Char → Prop) :
    ∀ (l acc : List Char), (∀ ch ∈ acc, ch ≠ '/' ∧ P ch) → (∀ ch ∈ l, P ch) →
      ∀ comp ∈ splitChars l acc, comp ≠ [] ∧ ∀ ch ∈ comp, ch ≠ '/' ∧ P ch := by
  intro l
  induction l with
  | nil =>
    intro acc hacc _ comp hcomp
    rw [splitChars] at hcomp
    split at hcomp
    · simp at hcomp
    · rename_i hne
      have hc2 : comp = acc.reverse := by simpa using hcomp
      subst hc2
      refine ⟨?_, fun ch hch => hacc ch (List.mem_reverse.mp hch)⟩
      intro he
      have : acc = [] := by simpa using he
      rw [this] at hne
      exact hne rfl
  | cons c rest ih =>
    intro acc hacc hl comp hcomp
    rw [splitChars] at hcomp
    split at hcomp
    · split at hcomp
      · exact ih [] (by simp) (fun ch h => hl ch (List.mem_cons_of_mem c h)) comp hcomp
      · rename_i hslash hne
        rcases List.mem_cons.mp hcomp with rfl | h2
        · refine ⟨?_, fun ch hch => hacc ch (List.mem_reverse.mp hch)⟩
          intro he
          have : acc = [] := by simpa using he
          rw [this] at hne
          exact hne rfl
        · exact ih [] (by simp) (fun ch h => hl ch (List.mem_cons_of_mem c h)) comp h2
    · rename_i hslash
      refine ih (c :: acc) ?_ (fun ch h => hl ch (List.mem_cons_of_mem c h)) comp hcomp
      intro ch hch
      rcases List.mem_cons.mp hch with rfl | h2
      · refine ⟨?_, hl ch (List.mem_cons_self ch rest)⟩
        intro he
        exact hslash (by rw [he]; rfl)
      · exact hacc ch h2

/- Component facts for the string-level splitter. -/
theorem splitPathComps_props {s : String} (hbs : ∀ ch ∈ s.data, ch ≠ '\\') :
    ∀ comp ∈ splitPathComps s, comp.data ≠ [] ∧ ∀ ch ∈ comp.data, ch ≠ '/' ∧ ch ≠ '\\' := by
  intro comp hcomp
  unfold splitPathComps at hcomp
  obtain ⟨lc, hlc, hrfl⟩ := List.mem_map.mp hcomp
  have hprops := splitChars_props (fun ch => ch ≠ '\\') s.data [] (by simp) hbs lc hlc
  rw [← hrfl]
  exact hprops

/- Normalization keeps only components of the input. -/
theorem normAbs_fold_subset (R : String → Prop) :
    ∀ (l acc : List String), (∀ x ∈ acc, R x) → (∀ x ∈ l, R x) →
      ∀ x ∈ l.foldl (fun acc c => if c == "." then acc else if c == ".." then acc.dropLast else acc ++ [c]) acc, R x := by
  intro l
  induction l with
  | nil => intro acc hacc _ x hx; exact hacc x hx
  | cons c rest ih =>
    intro acc hacc hl x hx
    rw [List.foldl_cons] at hx
    refine ih _ ?_ (fun y hy => hl y (List.mem_cons_of_mem c hy)) x hx
    intro y hy
    split at hy
    · exact hacc y hy
    · split at hy
      · exact hacc y (List.dropLast_subset acc hy)
      · rcases List.mem_append.mp hy with h2 | h2
        · exact hacc y h2
        · have : y = c := by simpa using h2
          subst this
          exact hl y (List.mem_cons_self y rest)

theorem normAbsComps_subset (l : List String) (x : String) (hx : x ∈ normAbsComps l) : x ∈ l :=
  normAbs_fold_subset (fun y => y ∈ l) l [] (by simp) (fun y hy => hy) x hx

/- The head of a slash-joined non-empty component list is the head of
   its first component. -/
theorem joinSlash_head {c : String} {rest : List String} (hc : c.data ≠ []) :
    (joinSlash (c :: rest)).head? = c.data.head? := by
  cases rest with
  | nil => rfl
  | cons d rest2 =>
    have hj : joinSlash (c :: d :: rest2) = c.data ++ '/' :: joinSlash (d :: rest2) := rfl
    rw [hj]
    cases hcd : c.data with
    | nil => exact absurd hcd hc
    | cons a t => simp

/- Characters of a slash join are slashes or component characters. -/
theorem joinSlash_chars : ∀ (l : List String) (ch : Char), ch ∈ joinSlash l →
    ch = '/' ∨ ∃ c ∈ l, ch ∈ c.data
  | [], ch, h => by simp [joinSlash] at h
  | [c], ch, h => Or.inr ⟨c, List.mem_singleton.mpr rfl, h⟩
  | c :: d :: rest, ch, h => by
    have hj : joinSlash (c :: d :: rest) = c.data ++ '/' :: joinSlash (d :: rest) := rfl
    rw [hj] at h
    rcases List.mem_append.mp h with h2 | h2
    · exact Or.inr ⟨c, List.mem_cons_self c (d :: rest), h2⟩
    · rcases List.mem_cons.mp h2 with rfl | h3
      · exact Or.inl rfl
      · rcases joinSlash_chars (d :: rest) ch h3 with h4 | ⟨c2, hc2, hch⟩
        · exact Or.inl h4
        · exact Or.inr ⟨c2, List.mem_cons_of_mem c hc2, hch⟩

/- Rendering good components yields no leading slash and no backslash. -/
theorem renderRel_good (rel : List String)
    (hgood : ∀ c ∈ rel, c.data ≠ [] ∧ ∀ ch ∈ c.data, ch ≠ '/' ∧ ch ≠ '\\') :
    (renderRel rel).data.head? ≠ some '/' ∧ ∀ ch ∈ (renderRel rel).data, ch ≠ '\\' := by
  cases rel with
  | nil => exact ⟨by decide, by decide⟩
  | cons c rest =>
    have hc := hgood c (List.mem_cons_self c rest)
    unfold renderRel
    rw [show ((c :: rest : List String)).isEmpty = false from rfl]
    simp only [Bool.false_eq_true, if_false]
    constructor
    · show (joinSlash (c :: rest)).head? ≠ some '/'
      rw [joinSlash_head hc.1]
      cases hcd : c.data with
      | nil => exact absurd hcd hc.1
      | cons a t =>
        have ha := (hc.2 a (by rw [hcd]; exact List.mem_cons_self a t)).1
        simp [ha]
    · intro ch h
      rcases joinSlash_chars (c :: rest) ch h with rfl | ⟨c2, hc2, hch⟩
      · decide
      · exact ((hgood c2 hc2).2 ch hch).2

/- The relative path computed between two absolute unix paths has no
   leading slash and no backslash. -/
theorem relpath_output_good (cwd path start : String)
    (hpath : strStartsWith path "/" = true) (hstart : strStartsWith start "/" = true)
    (hbs : ∀ ch ∈ path.data, ch ≠ '\\') :
    (relpathPosix cwd path start).data.head? ≠ some '/' ∧
    ∀ ch ∈ (relpathPosix cwd path start).data, ch ≠ '\\' := by
  unfold relpathPosix
  simp only [hpath, hstart, if_true, List.nil_append]
  apply renderRel_good
  intro c hc
  rcases List.mem_append.mp hc with h | h
  · have hc2 : c = ".." := List.eq_of_mem_replicate h
    subst hc2
    exact ⟨by decide, by decide⟩
  · have h2 : c ∈ normAbsComps (splitPathComps path) := List.drop_subset _ _ h
    have h3 : c ∈ splitPathComps path := normAbsComps_subset _ _ h2
    exact splitPathComps_props hbs c h3

/- The normalized root keeps its leading slash. -/
theorem normalizeRoot_head {root : String} (hroot : strStartsWith root "/" = true) :
    ∃ t, (normalizeRoot root).data = '/' :: t := by
  obtain ⟨t0, ht0⟩ := head_of_prefixB (show isPrefixB ('/' :: []) root.data = true from hroot)
  have h1 : ∃ u, (toUnixPath root).data = '/' :: u := by
    refine ⟨toUnixGo false t0, ?_⟩
    show toUnixGo false root.data = '/' :: toUnixGo false t0
    rw [ht0, toUnixGo]
    rfl
  obtain ⟨u, hu⟩ := h1
  unfold normalizeRoot
  dsimp only
  split
  · exact ⟨u, hu⟩
  · refine ⟨u ++ ['/'], ?_⟩
    rw [String.data_append, hu]
    rfl

/- Fold characterization of the include partition for a present root. -/
theorem includes_foldl (cwd q : String) :
    ∀ (incs : List IncludeEntry) (acc : IncludesPartition),
      incs.foldl (includeStep cwd (some q)) acc =
        ⟨acc.plain_includes ++ (incs.filter (fun i => !i.isSystem && !(strStartsWith (toUnixPath i.path) q))).map (fun i => toUnixPath i.path),
         acc.sys_includes ++ (incs.filter (fun i => i.isSystem)).map (fun i => toUnixPath i.path),
         acc.prefixed_includes ++ (incs.filter (fun i => !i.isSystem && strStartsWith (toUnixPath i.path) q)).map (fun i => toUnixPath (relpathPosix cwd (toUnixPath i.path) q))⟩
  | [], acc => by cases acc; simp
  | i :: incs, acc => by
    rw [List.foldl_cons, includes_foldl cwd q incs]
    cases hsys : i.isSystem <;> cases hsw : strStartsWith (toUnixPath i.path) q <;>
      simp [includeStep, hsys, hsw, List.append_assoc]

/- Three exclusive boolean filters cover the whole list. -/
theorem filter_three_length (p q2 : IncludeEntry → Bool) :
    ∀ l : List IncludeEntry,
      (l.filter (fun i => !p i && !(q2 i))).length + (l.filter p).length +
        (l.filter (fun i => !p i && q2 i)).length = l.length
  | [] => rfl
  | i :: l => by
    have ih := filter_three_length p q2 l
    cases hp : p i <;> cases hq : q2 i <;> simp [List.filter_cons, hp, hq] <;> omega

/-- C3: for a compile group with an absolute framework root, every
include entry is placed in exactly one of the three buckets: isSystem
entries in the system bucket, other entries under the normalized root
prefix in the prefixed bucket rewritten relative to the root, and all
remaining entries in the plain bucket; the bucket sizes sum to the
number of entries, and no prefixed path carries a leading separator. -/
theorem include_partition_total (cwd root : String) (incs : List IncludeEntry)
    (hroot : strStartsWith root "/" = true) :
    (extract_includes_from_compile_group cwd incs (some root)).sys_includes = sysIncludesSpec incs ∧
    (extract_includes_from_compile_group cwd incs (some root)).plain_includes = plainIncludesSpec cwd root incs ∧
    (extract_includes_from_compile_group cwd incs (some root)).prefixed_includes = prefixedIncludesSpec cwd root incs ∧
    (extract_includes_from_compile_group cwd incs (some root)).plain_includes.length +
      (extract_includes_from_compile_group cwd incs (some root)).sys_includes.length +
      (extract_includes_from_compile_group cwd incs (some root)).prefixed_includes.length = incs.length ∧
    ∀ s ∈ (extract_includes_from_compile_group cwd incs (some root)).prefixed_includes,
      s.data.head? ≠ some '/' := by
  have hne : (root == "") = false := by
    cases hv : root == ""
    · rfl
    · have hr : root = "" := beq_iff_eq.mp hv
      rw [hr] at hroot
      exact absurd hroot (by decide)
  have hq : extract_includes_from_compile_group cwd incs (some root) =
      incs.foldl (includeStep cwd (some (normalizeRoot root))) ⟨[], [], []⟩ := by
    simp [extract_includes_from_compile_group, hne]
  rw [hq, includes_foldl]
  obtain ⟨tq, htq⟩ := normalizeRoot_head hroot
  refine ⟨by simp [sysIncludesSpec], by simp [plainIncludesSpec], by simp [prefixedIncludesSpec], ?_, ?_⟩
  · simp only [List.nil_append, List.length_map]
    exact filter_three_length (fun i => i.isSystem)
      (fun i => strStartsWith (toUnixPath i.path) (normalizeRoot root)) incs
  · intro s hs
    simp only [List.nil_append] at hs
    obtain ⟨i, hi, hrfl⟩ := List.mem_map.mp hs
    have hfi := List.of_mem_filter hi
    have hsw : strStartsWith (toUnixPath i.path) (normalizeRoot root) = true := by
      simp only [Bool.and_eq_true] at hfi
      exact hfi.2
    have hpath : strStartsWith (toUnixPath i.path) "/" = true := by
      have hpre : isPrefixB ('/' :: tq) (toUnixPath i.path).data = true := by
        have h0 : isPrefixB (normalizeRoot root).data (toUnixPath i.path).data = true := hsw
        rw [htq] at h0
        exact h0
      obtain ⟨t2, ht2⟩ := head_of_prefixB hpre
      exact startsWith_slash_of_head ht2
    have hstart : strStartsWith (normalizeRoot root) "/" = true :=
      startsWith_slash_of_head htq
    obtain ⟨hh, hbs2⟩ := relpath_output_good cwd (toUnixPath i.path) (normalizeRoot root)
      hpath hstart toUnixPath_no_bs
    rw [← hrfl, toUnixPath_id hbs2]
    exact hh

/- C3 witness at a concrete compile group and framework root. -/
theorem include_partition_total_witness :
    (extract_includes_from_compile_group "/" [⟨"/fw/inc", false⟩, ⟨"/sys/inc", true⟩, ⟨"/other", false⟩] (some "/fw")).sys_includes = sysIncludesSpec [⟨"/fw/inc", false⟩, ⟨"/sys/inc", true⟩, ⟨"/other", false⟩] ∧
    (extract_includes_from_compile_group "/" [⟨"/fw/inc", false⟩, ⟨"/sys/inc", true⟩, ⟨"/other", false⟩] (some "/fw")).plain_includes = plainIncludesSpec "/" "/fw" [⟨"/fw/inc", false⟩, ⟨"/sys/inc", true⟩, ⟨"/other", false⟩] ∧
    (extract_includes_from_compile_group "/" [⟨"/fw/inc", false⟩, ⟨"/sys/inc", true⟩, ⟨"/other", false⟩] (some "/fw")).prefixed_includes = prefixedIncludesSpec "/" "/fw" [⟨"/fw/inc", false⟩, ⟨"/sys/inc", true⟩, ⟨"/other", false⟩] ∧
    (extract_includes_from_compile_group "/" [⟨"/fw/inc", false⟩, ⟨"/sys/inc", true⟩, ⟨"/other", false⟩] (some "/fw")).plain_includes.length +
      (extract_includes_from_compile_group "/" [⟨"/fw/inc", false⟩, ⟨"/sys/inc", true⟩, ⟨"/other", false⟩] (some "/fw")).sys_includes.length +
      (extract_includes_from_compile_group "/" [⟨"/fw/inc", false⟩, ⟨"/sys/inc", true⟩, ⟨"/other", false⟩] (some "/fw")).prefixed_includes.length = ([⟨"/fw/inc", false⟩, ⟨"/sys/inc", true⟩, ⟨"/other", false⟩] : List IncludeEntry).length ∧
    ∀ s ∈ (extract_includes_from_compile_group "/" [⟨"/fw/inc", false⟩, ⟨"/sys/inc", true⟩, ⟨"/other", false⟩] (some "/fw")).prefixed_includes,
      s.data.head? ≠ some '/' :=
  include_partition_total "/" "/fw" [⟨"/fw/inc", false⟩, ⟨"/sys/inc", true⟩, ⟨"/other", false⟩]
    (by decide)
